import Mathlib

/-!
Verification development for the marker correlation and classification engine
of PyProf (`src/pyprof/parse/nvvp.py`, class `NVVP`, mainly `getMarkerInfo`
and its helper functions).

Marker texts are modelled as lists of characters (`PyStr`), which matches the
source language's strings (sequences of code points).  The source's string
operations (`in`, `split`, `int()`, comparison) are embedded below with the
same semantics.  Fallible steps of the source (assertion failures, index
errors, value errors) are modelled with `Option`: `none` means the resolution
raises and produces no correlation record.
-/

namespace PyProf

/-- Marker text: a sequence of characters, exactly as the source language
treats a string. -/
abbrev PyStr := List Char

/-- Shorthand to write a `PyStr` from a string literal. -/
def pys (s : String) : PyStr := s.data

/-- The character `{` (written by code point to keep it out of literals). -/
def lbrace : Char := Char.ofNat 123

/-- The character `}` (written by code point). -/
def rbrace : Char := Char.ofNat 125

/-- The single-quote character. -/
def squote : Char := Char.ofNat 39

/-- The double-quote character. -/
def dquote : Char := Char.ofNat 34

/-- Substring test: `strContains s pat` is the source's `pat in s`
(also `s.find(pat) >= 0`). -/
def strContains : PyStr → PyStr → Bool
  | s, pat =>
    pat.isPrefixOf s ||
      match s with
      | [] => false
      | _ :: rest => strContains rest pat

theorem strContains_iff (s pat : PyStr) : strContains s pat = true ↔ pat <:+: s := by
  induction s with
  | nil =>
    rw [strContains]
    simp only [Bool.or_eq_true, List.isPrefixOf_iff_prefix]
    constructor
    · rintro (h | h)
      · exact h.isInfix
      · cases h
    · intro h
      exact Or.inl (List.eq_nil_of_infix_nil h ▸ List.nil_prefix)
  | cons c rest ih =>
    rw [strContains]
    simp only [Bool.or_eq_true, List.isPrefixOf_iff_prefix]
    rw [List.infix_cons_iff]
    constructor
    · rintro (h | h)
      · exact Or.inl h
      · exact Or.inr (ih.mp h)
    · rintro (h | h)
      · exact Or.inl h
      · exact Or.inr (ih.mpr h)

/-- Python-style split, fuelled so that it is structurally recursive
(`pySplit` below always supplies enough fuel).  `pySplitGo sep fuel s`
scans `s` left to right; whenever `sep` is a prefix of the remaining
input it cuts a segment there and skips `sep`. -/
def pySplitGo (sep : PyStr) : Nat → PyStr → List PyStr
  | 0, s => [s]
  | fuel + 1, s =>
    if sep.isPrefixOf s && !sep.isEmpty && !s.isEmpty then
      [] :: pySplitGo sep fuel (s.drop sep.length)
    else
      match s with
      | [] => [[]]
      | c :: rest =>
        match pySplitGo sep fuel rest with
        | [] => [[c]]
        | h :: t => (c :: h) :: t

/-- The source's `s.split(sep)` for a non-empty separator. -/
def pySplit (sep s : PyStr) : List PyStr := pySplitGo sep s.length s

theorem pySplitGo_ne_nil (sep : PyStr) (fuel : Nat) (s : PyStr) :
    pySplitGo sep fuel s ≠ [] := by
  induction fuel generalizing s with
  | zero => simp [pySplitGo]
  | succ fuel ih =>
    simp only [pySplitGo]
    split
    · simp
    · match s with
      | [] => simp
      | c :: rest =>
        cases h : pySplitGo sep fuel rest with
        | nil => simp [h]
        | cons h t => simp [h]

theorem pySplitGo_length_ge_two (sep : PyStr) (fuel : Nat) (s : PyStr)
    (hsep : sep ≠ []) (hinf : sep <:+: s) (hfuel : s.length ≤ fuel) :
    2 ≤ (pySplitGo sep fuel s).length := by
  induction fuel generalizing s with
  | zero =>
    interval_cases h : s.length
    · have : s = [] := List.length_eq_zero.mp h
      subst this
      exact absurd (List.eq_nil_of_infix_nil hinf) hsep
  | succ fuel ih =>
    simp only [pySplitGo]
    split
    · have := pySplitGo_ne_nil sep fuel (s.drop sep.length)
      cases h : pySplitGo sep fuel (s.drop sep.length) with
      | nil => exact absurd h this
      | cons a t => simp
    · rename_i hcond
      match s with
      | [] => exact absurd (List.eq_nil_of_infix_nil hinf) hsep
      | c :: rest =>
        have hpre : ¬ sep <+: c :: rest := by
          intro hp
          apply hcond
          simp [ List.isPrefixOf_iff_prefix, hp, hsep]
        have hrest : sep <:+: rest := by
          rcases List.infix_cons_iff.mp hinf with h | h
          · exact absurd h hpre
          · exact h
        have hlen : rest.length ≤ fuel := by
          simpa using Nat.le_of_succ_le_succ hfuel
        have h2 := ih rest hrest hlen
        cases h : pySplitGo sep fuel rest with
        | nil => exact absurd h (pySplitGo_ne_nil sep fuel rest)
        | cons a t =>
          rw [h] at h2
          simpa [h] using h2

theorem pySplit_length_ge_two (sep s : PyStr) (hsep : sep ≠ []) (hinf : sep <:+: s) :
    2 ≤ (pySplit sep s).length :=
  pySplitGo_length_ge_two sep s.length s hsep hinf (Nat.le_refl _)

/-- Parse a run of decimal digits (the core of the source's `int()`);
`none` when empty or a non-digit appears. -/
def digitsToNat : PyStr → Option Nat
  | [] => none
  | cs =>
    cs.foldl
      (fun acc c =>
        match acc with
        | none => none
        | some a => if c.isDigit then some (a * 10 + (c.toNat - 48)) else none)
      (some 0)

/-- The source's `int(s)` on an ordinary decimal literal: strips surrounding
whitespace, allows one sign, then requires a non-empty digit run. -/
def pyInt (s : PyStr) : Option Int :=
  let t := ((s.dropWhile Char.isWhitespace).reverse.dropWhile Char.isWhitespace).reverse
  match t with
  | '-' :: ds => (digitsToNat ds).map (fun n => -(n : Int))
  | '+' :: ds => (digitsToNat ds).map (fun n => (n : Int))
  | ds => (digitsToNat ds).map (fun n => (n : Int))

/-- Map a fallible function over a list, failing when any element fails
(the effect of a raised exception inside a source-level loop or sort-key
computation). -/
def optMapM {α β : Type} (f : α → Option β) : List α → Option (List β)
  | [] => some []
  | a :: l =>
    match f a, optMapM f l with
    | some b, some bs => some (b :: bs)
    | _, _ => none

/-- Stable insertion: place `x` before the first element `y` with
`le x y` (so among elements that compare equal, earlier input order is
preserved, as the source language's sort guarantees). -/
def insertLe {α : Type} (le : α → α → Bool) (x : α) : List α → List α
  | [] => [x]
  | y :: ys => if le x y then x :: y :: ys else y :: insertLe le x ys

/-- Stable sort (the source language's `list.sort`), by structural
insertion so that concrete runs reduce in the kernel. -/
def sortLe {α : Type} (le : α → α → Bool) : List α → List α
  | [] => []
  | x :: xs => insertLe le x (sortLe le xs)

theorem insertLe_perm {α : Type} (le : α → α → Bool) (x : α) (l : List α) :
    List.Perm (insertLe le x l) (x :: l) := by
  induction l with
  | nil => exact List.Perm.refl _
  | cons y ys ih =>
    rw [insertLe]
    split
    · exact List.Perm.refl _
    · exact (ih.cons y).trans (List.Perm.swap x y ys)

theorem sortLe_perm {α : Type} (le : α → α → Bool) (l : List α) :
    List.Perm (sortLe le l) l := by
  induction l with
  | nil => exact List.Perm.refl _
  | cons x xs ih =>
    rw [sortLe]
    exact (insertLe_perm le x (sortLe le xs)).trans (ih.cons x)

theorem mem_sortLe {α : Type} (le : α → α → Bool) (l : List α) (x : α) :
    x ∈ sortLe le l ↔ x ∈ l :=
  (sortLe_perm le l).mem_iff

theorem pairwise_insertLe {α : Type} {le : α → α → Bool}
    (trans : ∀ a b c, le a b = true → le b c = true → le a c = true)
    (total : ∀ a b, le a b || le b a) (x : α) {l : List α}
    (h : List.Pairwise (fun a b => le a b = true) l) :
    List.Pairwise (fun a b => le a b = true) (insertLe le x l) := by
  induction l with
  | nil => simp [insertLe]
  | cons y ys ih =>
    rw [insertLe]
    rcases List.pairwise_cons.mp h with ⟨hy, hys⟩
    split
    · rename_i hxy
      refine List.pairwise_cons.mpr ⟨?_, h⟩
      intro z hz
      rcases List.mem_cons.mp hz with rfl | hz
      · exact hxy
      · exact trans x y z hxy (hy z hz)
    · rename_i hxy
      have hyx : le y x = true := by
        have := total x y
        simp only [Bool.or_eq_true] at this
        rcases this with h1 | h1
        · exact absurd h1 hxy
        · exact h1
      refine List.pairwise_cons.mpr ⟨?_, ih hys⟩
      intro z hz
      rcases List.mem_cons.mp ((insertLe_perm le x ys).mem_iff.mp hz) with rfl | hz
      · exact hyx
      · exact hy z hz

theorem pairwise_sortLe {α : Type} {le : α → α → Bool}
    (trans : ∀ a b c, le a b = true → le b c = true → le a c = true)
    (total : ∀ a b, le a b || le b a) (l : List α) :
    List.Pairwise (fun a b => le a b = true) (sortLe le l) := by
  induction l with
  | nil => simp [sortLe]
  | cons x xs ih =>
    rw [sortLe]
    exact pairwise_insertLe trans total x ih

/-! ### Data model: the temporary `marker` table -/

/-- One row of the temporary `marker` table built by `createMarkerTable`
(the push/pop pairing is done by the SQL self-join; `name` here is the
decoded text, inlining `getString`). -/
structure Marker where
  id : Nat
  startTime : Int
  endTime : Int
  objectId : String
  name : PyStr
deriving DecidableEq, Repr

/-- The containment query of `getMarkerInfo` (lines 254-260): all markers of
the given object identity with `startTime < s` and `endTime > e`, ordered
ascending by `startTime` (ties keep table order, as a stable sort). -/
def findEnclosing (tbl : List Marker) (objId : String) (s e : Int) : List Marker :=
  sortLe (fun a b => a.startTime ≤ b.startTime)
    (tbl.filter fun m => m.objectId == objId && m.startTime < s && m.endTime > e)

/-- The lookahead window query of `getMarkerInfo` (line 303): markers of the
object identity with id strictly between `lo` and `hi`, ordered by start. -/
def windowQuery (tbl : List Marker) (objId : String) (lo hi : Nat) : List Marker :=
  sortLe (fun a b => a.startTime ≤ b.startTime)
    (tbl.filter fun m => m.objectId == objId && lo < m.id && m.id < hi)

/-- The eviction of helper `delete` (lines 162-170, `margin = 0`): remove
every marker of this object identity whose `endTime` is before `sTime`. -/
def deleteMarkers (tbl : List Marker) (objId : String) (sTime : Int) : List Marker :=
  tbl.filter fun m => !(m.objectId == objId && m.endTime < sTime)

/-! ### Classification -/

/-- The six categories a (non-checkpoint) marker text is binned into by the
elif chain of `getMarkerInfo` (lines 273-284). -/
inductive Category
  | opArgs
  | layer
  | trace
  | moduleRepr
  | sequence
  | other
deriving DecidableEq, Repr

/-- The first test of the chain (line 273): the four substring tests
`"mod" in m and "op" in m and "args" in m and "type" in m`. -/
def opArgsTest (m : PyStr) : Bool :=
  strContains m (pys "mod") && strContains m (pys "op") &&
    strContains m (pys "args") && strContains m (pys "type")

/-- The elif chain of `getMarkerInfo` (lines 273-284), first match wins. -/
def classify (m : PyStr) : Category :=
  if opArgsTest m then .opArgs
  else if strContains m (pys "layer:") then .layer
  else if strContains m (pys "traceMarker") then .trace
  else if strContains m (pys "strRepr") then .moduleRepr
  else if strContains m (pys ", seq = ") then .sequence
  else .other

/-- The gradient-checkpointing pre-filter test (line 267). -/
def isCheckpoint (m : PyStr) : Bool :=
  strContains m (pys "CheckpointFunctionBackward")

/-- The backward-pass marker test (line 270). -/
def isBackwardMarker (m : PyStr) : Bool :=
  strContains m (pys "_backward, seq =") || strContains m (pys "Backward, seq =") ||
    strContains m (pys "Backward0, seq =")

/-- Texts of the enclosing markers, in query order. -/
def enclosingTexts (tbl : List Marker) (objId : String) (s e : Int) : List PyStr :=
  (findEnclosing tbl objId s e).map (fun m => m.name)

/-- Texts surviving the checkpoint pre-filter (the `continue` on line 268). -/
def keptTexts (tbl : List Marker) (objId : String) (s e : Int) : List PyStr :=
  (enclosingTexts tbl objId s e).filter (fun m => !isCheckpoint m)

/-- The classification list of one category, in marker order. -/
def catMarkers (tbl : List Marker) (objId : String) (s e : Int) (c : Category) : List PyStr :=
  (keptTexts tbl objId s e).filter (fun m => classify m == c)

/-- The `bprop` flag computed by the classification loop (lines 270-271);
checkpoint markers are skipped before the test. -/
def bpropOf (kept : List PyStr) : Bool := kept.any isBackwardMarker

/-! ### Sequence-id extraction, sorting, pruning -/

/-- Helper `getSeqId` applied to one marker: asserts the strict delimiter,
then `int(m.split(',')[1].split('=')[1])` (lines 184-194).  `none` models
the assertion error, index error or value error. -/
def parseSeqId (m : PyStr) : Option Int := do
  guard (strContains m (pys ", seq = "))
  let p1 ← (pySplit (pys ",") m).get? 1
  let p2 ← (pySplit (pys "=") p1).get? 1
  pyInt p2

/-- Helper `getSeqId` (lines 184-199): parse every marker, deduplicate by
value, sort ascending. -/
def getSeqId (ms : List PyStr) : Option (List Int) := do
  let ids ← optMapM parseSeqId ms
  pure (sortLe (fun a b => a ≤ b) ids.eraseDups)

/-- Lexicographic comparison of character lists, the source language's
string `<=` (code-point order). -/
def lexLe : PyStr → PyStr → Bool
  | [], _ => true
  | _ :: _, [] => false
  | a :: as, b :: bs => if a < b then true else if b < a then false else lexLe as bs

/-- Helper `seqcompare` (lines 201-208): assert the strict delimiter, split
on `" = "`, and return the concatenation `l[1] + l[0]` as sort key. -/
def seqcompare (m : PyStr) : Option PyStr := do
  guard (strContains m (pys ", seq = "))
  let parts := pySplit (pys " = ") m
  let a ← parts.get? 0
  let b ← parts.get? 1
  pure (b ++ a)

/-- The source's `mlist.sort(key=seqcompare)`: the key is computed for every
element (failing the whole call if any key raises), then a stable sort
compares keys with string `<=`. -/
def sortByKey (ms : List PyStr) : Option (List PyStr) := do
  let pairs ← optMapM (fun m => (seqcompare m).bind (fun k => some (k, m))) ms
  pure ((sortLe (fun a b => lexLe a.1 b.1) pairs).map (fun p => p.2))

/-- The split of helper `prune` (line 223): `m.split(",")[0:2]` unpacked
into two names; `none` when there are fewer than two fields. -/
def pruneSplit (m : PyStr) : Option (PyStr × PyStr) :=
  match pySplit (pys ",") m with
  | a :: b :: _ => some (a, b)
  | _ => none

/-- One comparison of helper `prune` (lines 223-226): `some true` when the
element is kept, `some false` when discarded, `none` when a split raises. -/
def pruneStep (pm m : PyStr) : Option Bool := do
  let nm ← pruneSplit m
  let pnm ← pruneSplit pm
  pure (!(nm.2 == pnm.2 && (strContains pnm.1 nm.1 || strContains nm.1 pnm.1)))

/-- Helper `prune` (lines 210-230): keep the first element; each later
element is compared against its predecessor in the input list (kept or
not).  `none` models the assertion on an empty list and split errors. -/
def prune : List PyStr → Option (List PyStr)
  | [] => none
  | x :: xs => do
    let flags ← optMapM (fun p => pruneStep p.1 p.2) ((x :: xs).zip xs)
    pure (x :: ((xs.zip flags).filterMap (fun p => if p.2 then some p.1 else none)))

/-- The dedup-sort-prune pipeline applied to `seqMarkers` (lines 287-290)
and `altSeqMarkers` (lines 315-318); skipped entirely on an empty list. -/
def dedupSortPrune (ms : List PyStr) : Option (List PyStr) :=
  if ms.isEmpty then some ms else (sortByKey ms.eraseDups).bind prune

/-! ### Trace filtering and layer names -/

/-- The delimiter of a trace-marker payload: the text starts with
`{'traceMarker': ` (braces and quotes written by code point). -/
def traceOpen : PyStr := [lbrace, squote] ++ pys "traceMarker" ++ [squote, ':', ' ']

/-- Evaluation of the last trace marker (line 240-241).  The source calls
the language's `eval` and reads key `traceMarker`; modelled from the spec's
wire format (section 6): a record with the single key `traceMarker` mapping
to a list of single-quoted strings. -/
def evalTraceMarker (m : PyStr) : Option (List PyStr) := do
  guard (traceOpen.isPrefixOf m)
  guard (m.getLast? = some rbrace)
  let inner := (m.drop traceOpen.length).dropLast
  if inner = pys "[]" then
    pure []
  else do
    guard (inner.take 2 = ['[', squote])
    guard (inner.drop (inner.length - 2) = [squote, ']'])
    pure (pySplit [squote, ',', ' ', squote] ((inner.drop 2).take (inner.length - 4)))

/-- The instrumentation/framework path fragments removed from the call
trace (lines 243-251). -/
def excludedFragments : List PyStr :=
  [pys "/torch/nn/modules/", pys "/torch/nn/functional.py", pys "/torch/tensor.py",
   pys "/torch/autograd/__init__.py", pys "/torch/_jit_internal.py",
   pys "/pyprof/nvtx/nvmarker.py", pys "/apex/optimizers/", pys "/torch/_utils.py",
   pys "/torch/optim/"]

/-- Helper `filterTrace` (lines 232-252): empty input passes through;
otherwise the last trace marker is decoded and its frames filtered. -/
def filterTrace (ms : List PyStr) : Option (List PyStr) :=
  match ms.getLast? with
  | none => some []
  | some last => do
    let tr ← evalTraceMarker last
    pure (tr.filter (fun x => excludedFragments.all (fun f => !strContains x f)))

/-- Helper `getLayerName` (lines 172-182): assert `"layer:"` and take the
text between the first and second colon. -/
def getLayerName (ms : List PyStr) : Option (List PyStr) :=
  optMapM
    (fun m =>
      if strContains m (pys "layer:") then (pySplit (pys ":") m).get? 1 else none)
    ms

/-! ### The correlation record and `getMarkerInfo` -/

/-- The tuple returned by `getMarkerInfo` (lines 322-326), plus the `bprop`
flag the function computes; the record's `isBackward` field is modelled
from the spec (section 6) as exactly this flag. -/
structure Output where
  layerMarkers : List PyStr
  callTrace : List PyStr
  reprMarkers : List PyStr
  pyprofMarkers : List PyStr
  seqMarkers : List PyStr
  otherMarkers : List PyStr
  altSeqMarkers : List PyStr
  seqIds : List Int
  altSeqIds : List Int
  layerNames : List PyStr
  bprop : Bool
deriving DecidableEq, Repr

/-- The id of the last row of the containment query (line 299). -/
def lastId (res : List Marker) : Nat :=
  ((res.getLast?).map (fun m => m.id)).getD 0

/-- The dedup-sort-prune of `seqMarkers` (lines 287-290). -/
def seqStage (tbl : List Marker) (objId : String) (s e : Int) : Option (List PyStr) :=
  dedupSortPrune (catMarkers tbl objId s e .sequence)

/-- The guard of the lookahead block (line 297):
`len(result) and not bprop`. -/
def doWindowOf (tbl : List Marker) (objId : String) (s e : Int) : Bool :=
  !(findEnclosing tbl objId s e).isEmpty && !bpropOf (keptTexts tbl objId s e)

/-- The raw alt-sequence marker texts (lines 303-312): the lookahead
window filtered by the loose delimiter `", seq="`; empty when the
lookahead does not run. -/
def altRawOf (tbl : List Marker) (mid : Nat) (objId : String) (s e : Int) : List PyStr :=
  if doWindowOf tbl objId s e then
    ((windowQuery tbl objId mid (lastId (findEnclosing tbl objId s e))).map
      (fun m => m.name)).filter (fun m => strContains m (pys ", seq="))
  else []

/-- The dedup-sort-prune of `altSeqMarkers` (lines 315-318). -/
def altStage (tbl : List Marker) (mid : Nat) (objId : String) (s e : Int) :
    Option (List PyStr) :=
  dedupSortPrune (altRawOf tbl mid objId s e)

/-- The cursor value after the resolution: `self.markerId` is overwritten
on line 300 (before the alt-sequence sort) when the lookahead runs. -/
def cursorAfter (tbl : List Marker) (mid : Nat) (objId : String) (s e : Int) : Nat :=
  if doWindowOf tbl objId s e then lastId (findEnclosing tbl objId s e) else mid

/-- The return tuple (lines 322-326), evaluated after `delete`; any raise
in `filterTrace`, `getSeqId` or `getLayerName` yields no record. -/
def buildRecord (tbl : List Marker) (objId : String) (s e : Int)
    (seqMarkers altSeqMarkers : List PyStr) : Option Output :=
  match filterTrace (catMarkers tbl objId s e .trace), getSeqId seqMarkers,
      getSeqId altSeqMarkers, getLayerName (catMarkers tbl objId s e .layer) with
  | some ct, some sIds, some aIds, some lNames =>
    some { layerMarkers := catMarkers tbl objId s e .layer, callTrace := ct,
           reprMarkers := catMarkers tbl objId s e .moduleRepr,
           pyprofMarkers := catMarkers tbl objId s e .opArgs,
           seqMarkers := seqMarkers,
           otherMarkers := (catMarkers tbl objId s e .other).eraseDups,
           altSeqMarkers := altSeqMarkers, seqIds := sIds, altSeqIds := aIds,
           layerNames := lNames, bprop := bpropOf (keptTexts tbl objId s e) }
  | _, _, _, _ => none

/-- The body of `getMarkerInfo (objId, startTime, endTime)` (lines 134-326).
State: the marker table (mutated by `delete`) and the instance cursor
`self.markerId`.  Returns `(record?, new markerId, new table)`; `none`
means the call raised, and the state components reflect the mutations
performed before the raise (the cursor write on line 300 precedes the
alt-sequence sort, and `delete` on line 320 precedes the return tuple). -/
def getMarkerInfo (tbl : List Marker) (markerId : Nat) (objId : String)
    (startTime endTime : Int) : Option Output × Nat × List Marker :=
  match seqStage tbl objId startTime endTime with
  | none => (none, markerId, tbl)
  | some seqMarkers =>
    match altStage tbl markerId objId startTime endTime with
    | none => (none, cursorAfter tbl markerId objId startTime endTime, tbl)
    | some altSeqMarkers =>
      (buildRecord tbl objId startTime endTime seqMarkers altSeqMarkers,
       cursorAfter tbl markerId objId startTime endTime,
       deleteMarkers tbl objId startTime)

/-! ### Helper lemmas -/

theorem optMapM_eq_none_of_mem {α β : Type} (f : α → Option β) {l : List α} {x : α}
    (hx : x ∈ l) (hf : f x = none) : optMapM f l = none := by
  induction l with
  | nil => cases hx
  | cons a l ih =>
    rw [optMapM]
    rcases List.mem_cons.mp hx with rfl | hx
    · simp [hf]
    · rw [ih hx]
      cases h : f a <;> simp

theorem optMapM_isSome {α β : Type} (f : α → Option β) {l : List α}
    (h : ∀ x ∈ l, (f x).isSome) : (optMapM f l).isSome := by
  induction l with
  | nil => simp [optMapM]
  | cons a l ih =>
    rw [optMapM]
    have ha := h a (List.mem_cons_self a l)
    have hl := ih (fun x hx => h x (List.mem_cons_of_mem a hx))
    cases hfa : f a with
    | none => rw [hfa] at ha; cases ha
    | some b =>
      cases hml : optMapM f l with
      | none => rw [hml] at hl; cases hl
      | some bs => simp

theorem mem_optMapM_iff {α β : Type} (f : α → Option β) {l : List α} {ys : List β}
    (h : optMapM f l = some ys) (y : β) : y ∈ ys ↔ ∃ x ∈ l, f x = some y := by
  induction l generalizing ys with
  | nil =>
    rw [optMapM] at h
    cases h
    simp
  | cons a l ih =>
    rw [optMapM] at h
    cases ha : f a with
    | none => rw [ha] at h; cases h
    | some b =>
      cases hl : optMapM f l with
      | none => rw [ha, hl] at h; cases h
      | some bs =>
        rw [ha, hl] at h
        cases h
        simp only [List.mem_cons, ih hl]
        constructor
        · rintro (rfl | ⟨x, hx, hfx⟩)
          · exact ⟨a, Or.inl rfl, ha⟩
          · exact ⟨x, Or.inr hx, hfx⟩
        · rintro ⟨x, rfl | hx, hfx⟩
          · exact Or.inl (by rw [ha] at hfx; exact (Option.some.injEq _ _ ▸ hfx).symm)
          · exact Or.inr ⟨x, hx, hfx⟩

theorem optMapM_decorate_snd {α β : Type} (g : α → Option β) {l : List α}
    {ps : List (β × α)}
    (h : optMapM (fun m => (g m).bind (fun k => some (k, m))) l = some ps) :
    ps.map (fun p => p.2) = l := by
  induction l generalizing ps with
  | nil =>
    rw [optMapM] at h
    cases h
    rfl
  | cons a l ih =>
    rw [optMapM] at h
    cases ha : g a with
    | none => rw [ha] at h; cases h
    | some k =>
      cases hl : optMapM (fun m => (g m).bind (fun k => some (k, m))) l with
      | none => rw [ha, hl] at h; simp at h
      | some qs =>
        rw [ha, hl] at h
        simp only [Option.some_bind] at h
        cases h
        simp [ih hl]

theorem mem_eraseDupsLoop {α : Type} [BEq α] [LawfulBEq α] (as : List α) (bs : List α)
    (x : α) : x ∈ List.eraseDups.loop as bs ↔ x ∈ as ∨ x ∈ bs := by
  induction as generalizing bs with
  | nil => simp [List.eraseDups.loop]
  | cons a as ih =>
    rw [List.eraseDups.loop]
    cases h : bs.elem a with
    | true =>
      simp only [ih]
      have ha : a ∈ bs := List.elem_iff.mp h
      constructor
      · rintro (hx | hx)
        · exact Or.inl (List.mem_cons_of_mem a hx)
        · exact Or.inr hx
      · rintro (hx | hx)
        · rcases List.mem_cons.mp hx with rfl | hx
          · exact Or.inr ha
          · exact Or.inl hx
        · exact Or.inr hx
    | false =>
      simp only [ih, List.mem_cons]
      tauto

theorem nodup_eraseDupsLoop {α : Type} [BEq α] [LawfulBEq α] (as : List α) (bs : List α)
    (h : bs.Nodup) : (List.eraseDups.loop as bs).Nodup := by
  induction as generalizing bs with
  | nil => simpa [List.eraseDups.loop] using List.nodup_reverse.mpr h
  | cons a as ih =>
    rw [List.eraseDups.loop]
    cases he : bs.elem a with
    | true => exact ih bs h
    | false =>
      refine ih (a :: bs) (List.nodup_cons.mpr ⟨?_, h⟩)
      intro hmem
      have := List.elem_eq_true_of_mem hmem
      rw [he] at this
      cases this

theorem mem_eraseDups {α : Type} [BEq α] [LawfulBEq α] {l : List α} {x : α} :
    x ∈ l.eraseDups ↔ x ∈ l := by
  rw [List.eraseDups]
  rw [mem_eraseDupsLoop]
  simp

theorem nodup_eraseDups {α : Type} [BEq α] [LawfulBEq α] (l : List α) :
    l.eraseDups.Nodup := by
  rw [List.eraseDups]
  exact nodup_eraseDupsLoop l [] List.nodup_nil

theorem lexLe_total : ∀ a b : PyStr, lexLe a b || lexLe b a := by
  intro a
  induction a with
  | nil => intro b; simp [lexLe]
  | cons x xs ih =>
    intro b
    cases b with
    | nil => simp [lexLe]
    | cons y ys =>
      rw [lexLe, lexLe]
      rcases lt_trichotomy x y with h | h | h
      · simp [h]
      · subst h
        simp only [lt_irrefl, if_false]
        exact ih ys
      · simp [h, lt_asymm h]

theorem lexLe_trans : ∀ a b c : PyStr, lexLe a b = true → lexLe b c = true →
    lexLe a c = true := by
  intro a
  induction a with
  | nil => intro b c _ _; simp [lexLe]
  | cons x xs ih =>
    intro b c hab hbc
    cases b with
    | nil => simp [lexLe] at hab
    | cons y ys =>
      cases c with
      | nil => simp [lexLe] at hbc
      | cons z zs =>
        rw [lexLe] at hab hbc ⊢
        by_cases hxy : x < y
        · by_cases hyz : y < z
          · simp [lt_trans hxy hyz]
          · by_cases hzy : z < y
            · rw [if_neg hyz, if_pos hzy] at hbc
              cases hbc
            · have : y = z := le_antisymm (not_lt.mp hzy) (not_lt.mp hyz)
              subst this
              simp [hxy]
        · by_cases hyx : y < x
          · rw [if_neg hxy, if_pos hyx] at hab
            cases hab
          · have hxyeq : x = y := le_antisymm (not_lt.mp hyx) (not_lt.mp hxy)
            subst hxyeq
            simp only [lt_irrefl, if_false] at hab
            by_cases hyz : x < z
            · simp [hyz]
            · by_cases hzy : z < x
              · rw [if_neg hyz, if_pos hzy] at hbc
                cases hbc
              · have : x = z := le_antisymm (not_lt.mp hzy) (not_lt.mp hyz)
                subst this
                simp only [lt_irrefl, if_false] at hbc ⊢
                exact ih _ _ hab hbc

theorem getMarkerInfo_some_table {tbl : List Marker} {mid : Nat} {objId : String}
    {s e : Int} {out : Output} {mid1 : Nat} {tbl1 : List Marker}
    (h : getMarkerInfo tbl mid objId s e = (some out, mid1, tbl1)) :
    tbl1 = deleteMarkers tbl objId s := by
  unfold getMarkerInfo at h
  cases hseq : seqStage tbl objId s e with
  | none => rw [hseq] at h; simp at h
  | some sm =>
    rw [hseq] at h
    cases halt : altStage tbl mid objId s e with
    | none => rw [halt] at h; simp at h
    | some am =>
      rw [halt] at h
      simp only [Prod.mk.injEq] at h
      exact h.2.2.symm

/-- The table component of any `getMarkerInfo` call (success or raise) is
a sub-collection of the input table: markers are only ever deleted. -/
theorem getMarkerInfo_table_subset (tbl : List Marker) (mid : Nat) (objId : String)
    (s e : Int) : ∀ m ∈ (getMarkerInfo tbl mid objId s e).2.2, m ∈ tbl := by
  intro m hm
  unfold getMarkerInfo at hm
  cases hseq : seqStage tbl objId s e with
  | none => rw [hseq] at hm; exact hm
  | some sm =>
    rw [hseq] at hm
    cases halt : altStage tbl mid objId s e with
    | none => rw [halt] at hm; exact hm
    | some am =>
      rw [halt] at hm
      exact (List.mem_filter.mp hm).1

/-- Membership characterization of the containment query. -/
theorem findEnclosing_mem (tbl : List Marker) (objId : String) (s e : Int)
    (m : Marker) : m ∈ findEnclosing tbl objId s e ↔
    (m ∈ tbl ∧ m.objectId = objId ∧ m.startTime < s ∧ m.endTime > e) := by
  unfold findEnclosing
  rw [mem_sortLe, List.mem_filter]
  simp [Bool.and_eq_true, decide_eq_true_eq, and_assoc]

/-! ### Claim C1: strict containment -/

/-- Claim C1: the containment query returns exactly the markers of the
given object identity with `startTime < start` and `endTime > end` (strict:
a marker with `startTime = start` or `endTime = end` is never returned),
ordered ascending by `startTime`. -/
theorem claim_C1 (tbl : List Marker) (objId : String) (s e : Int) :
    (∀ m : Marker, m ∈ findEnclosing tbl objId s e ↔
      (m ∈ tbl ∧ m.objectId = objId ∧ m.startTime < s ∧ m.endTime > e)) ∧
    List.Pairwise (fun a b : Marker => a.startTime ≤ b.startTime)
      (findEnclosing tbl objId s e) ∧
    (∀ m ∈ findEnclosing tbl objId s e, m.startTime ≠ s ∧ m.endTime ≠ e) := by
  have hmem := findEnclosing_mem tbl objId s e
  refine ⟨hmem, ?_, ?_⟩
  · unfold findEnclosing
    have := @pairwise_sortLe Marker
      (fun a b : Marker => decide (a.startTime ≤ b.startTime))
      (fun a b c hab hbc => by
        simp only [decide_eq_true_eq] at *
        exact le_trans hab hbc)
      (fun a b => by
        simp only [Bool.or_eq_true, decide_eq_true_eq]
        exact le_total a.startTime b.startTime)
      (tbl.filter fun m => m.objectId == objId && m.startTime < s && m.endTime > e)
    exact this.imp (fun h => by simpa using h)
  · intro m hm
    have h := (hmem m).mp hm
    exact ⟨ne_of_lt h.2.2.1, fun he => by simp [he] at h⟩

/-- Witness markers for claims about the containment query. -/
def mkW1 : Marker := ⟨1, 5, 30, "O", pys "a"⟩

/-- A marker whose start time coincides with the kernel start (boundary). -/
def mkW2 : Marker := ⟨2, 10, 30, "O", pys "b"⟩

theorem claim_C1_witness :
    mkW1 ∈ findEnclosing [mkW1, mkW2] "O" 10 20 ∧
    mkW2 ∉ findEnclosing [mkW1, mkW2] "O" 10 20 := by
  have h := claim_C1 [mkW1, mkW2] "O" 10 20
  constructor
  · exact (h.1 mkW1).mpr ⟨by simp, rfl, by decide, by decide⟩
  · intro hm
    exact absurd ((h.1 mkW2).mp hm).2.2.1 (by decide)

/-! ### Claim C2: eviction monotonicity -/

/-- Claim C2: when `getMarkerInfo` resolves a kernel at `objId` with start
time `s`, every marker of `objId` with `endTime < s` is deleted from the
table, so a containment query for `objId` against the resulting table (or
any subset of it, tables only ever shrink) never returns a marker with
`endTime < s`; markers of other object identities are untouched. -/
theorem claim_C2 (tbl : List Marker) (mid : Nat) (objId : String) (s e : Int)
    (out : Output) (mid1 : Nat) (tbl1 : List Marker)
    (h : getMarkerInfo tbl mid objId s e = (some out, mid1, tbl1)) :
    (∀ m ∈ tbl1, m.objectId = objId → s ≤ m.endTime) ∧
    (∀ tbl2 : List Marker, (∀ m ∈ tbl2, m ∈ tbl1) → ∀ s2 e2 : Int,
      ∀ m ∈ findEnclosing tbl2 objId s2 e2, s ≤ m.endTime) ∧
    (∀ m : Marker, m.objectId ≠ objId → (m ∈ tbl1 ↔ m ∈ tbl)) ∧
    (∀ mid2 o2 s2 e2, ∀ m ∈ (getMarkerInfo tbl1 mid2 o2 s2 e2).2.2, m ∈ tbl1) := by
  have htbl : tbl1 = deleteMarkers tbl objId s := getMarkerInfo_some_table h
  have hdel : ∀ m ∈ tbl1, m.objectId = objId → s ≤ m.endTime := by
    intro m hm hobj
    rw [htbl] at hm
    have := (List.mem_filter.mp hm).2
    simp only [hobj, beq_self_eq_true, Bool.true_and, Bool.not_eq_true',
      decide_eq_false_iff_not, not_lt] at this
    exact this
  refine ⟨hdel, ?_, ?_, ?_⟩
  · intro tbl2 hsub s2 e2 m hm
    have := (findEnclosing_mem tbl2 objId s2 e2 m).mp hm
    exact hdel m (hsub m this.1) this.2.1
  · intro m hobj
    rw [htbl]
    unfold deleteMarkers
    rw [List.mem_filter]
    constructor
    · exact fun hm => hm.1
    · intro hm
      refine ⟨hm, ?_⟩
      simp [hobj]
  · intro mid2 o2 s2 e2 m hm
    exact getMarkerInfo_table_subset tbl1 mid2 o2 s2 e2 m hm

theorem claim_C2_witness :
    ∃ out mid1 tbl1, getMarkerInfo [mkW1, mkW2, ⟨3, 0, 7, "O", pys "c"⟩] 0 "O" 10 20 =
      (some out, mid1, tbl1) ∧
      (∀ m ∈ tbl1, m.objectId = "O" → (10 : Int) ≤ m.endTime) := by
  rcases hsome : (getMarkerInfo [mkW1, mkW2, ⟨3, 0, 7, "O", pys "c"⟩] 0 "O" 10 20).1
    with _ | out
  · have hx : (getMarkerInfo [mkW1, mkW2, ⟨3, 0, 7, "O", pys "c"⟩] 0 "O" 10 20).1.isSome
        = true := by decide
    rw [hsome] at hx
    cases hx
  · refine ⟨out, (getMarkerInfo [mkW1, mkW2, ⟨3, 0, 7, "O", pys "c"⟩] 0 "O" 10 20).2.1,
      (getMarkerInfo [mkW1, mkW2, ⟨3, 0, 7, "O", pys "c"⟩] 0 "O" 10 20).2.2, ?_, ?_⟩
    · rw [← hsome]
    · exact (claim_C2 _ 0 "O" 10 20 out _ _ (by rw [← hsome])).1

/-! ### Definitions taken from the spec's words, for comparison with the
source embedding -/

/-- Test that a key appears in quoted-key position inside a record text. -/
def quotedKeyIn (s : PyStr) (k : String) : Bool :=
  strContains s ((dquote :: pys k) ++ [dquote]) || strContains s ((squote :: pys k) ++ [squote])

/-- Modelled from the spec (sections 4.3 rule 1, 6, 8): an op-args payload
is "a structured record containing all four keys `mod`, `op`, `args`, and
(nested) `type`" — a brace-delimited record in which the four keys appear
quoted. -/
def isStructuredOpArgsRecord (s : PyStr) : Bool :=
  (s.head? == some lbrace) && (s.getLast? == some rbrace) &&
    quotedKeyIn s "mod" && quotedKeyIn s "op" && quotedKeyIn s "args" && quotedKeyIn s "type"

/-- Strict lexicographic comparison on character lists. -/
def lexLt : PyStr → PyStr → Bool
  | [], [] => false
  | [], _ :: _ => true
  | _ :: _, [] => false
  | a :: as, b :: bs => if a < b then true else if b < a then false else lexLt as bs

/-- Modelled from the spec (section 4.4 step 2, claim C6): the claimed sort
order — split each text on " = " into a head part and a tail part and
compare ascending by the PAIR (tail, head) lexicographically as text. -/
def specPairKeyLt (m1 m2 : PyStr) : Bool :=
  let t1 := (pySplit (pys " = ") m1).getD 1 []
  let h1 := (pySplit (pys " = ") m1).getD 0 []
  let t2 := (pySplit (pys " = ") m2).getD 1 []
  let h2 := (pySplit (pys " = ") m2).getD 0 []
  lexLt t1 t2 || (t1 == t2 && lexLt h1 h2)

/-- Modelled from the spec (section 4.4 step 3, claim C7): split on the
FIRST comma only, keeping the whole remainder as the seq part. -/
def specSplitFirstComma (m : PyStr) : Option (PyStr × PyStr) :=
  match pySplit (pys ",") m with
  | a :: b :: rest => some (a, List.intercalate (pys ",") (b :: rest))
  | _ => none

/-- Modelled from the spec (claim C7): the keep/discard test using the
first-comma split. -/
def specKeepStep (pm m : PyStr) : Option Bool := do
  let nm ← specSplitFirstComma m
  let pnm ← specSplitFirstComma pm
  pure (!(nm.2 == pnm.2 && (strContains pnm.1 nm.1 || strContains nm.1 pnm.1)))

/-- Modelled from the spec (claim C7): prune comparing each element against
the previous KEPT element. -/
def pruneSpecGo (pm : PyStr) : List PyStr → Option (List PyStr)
  | [] => some []
  | m :: rest => do
    let keep ← specKeepStep pm m
    if keep then do
      let r ← pruneSpecGo m rest
      pure (m :: r)
    else pruneSpecGo pm rest

/-- Modelled from the spec (claim C7): keep the first element, then scan
with the previous-kept comparison. -/
def pruneSpec : List PyStr → Option (List PyStr)
  | [] => none
  | x :: xs => do
    let r ← pruneSpecGo x xs
    pure (x :: r)

/-- Reference recursion equal to the source's `prune`: each element is
compared against its predecessor in the input (kept or not). -/
def pruneGo (pm : PyStr) : List PyStr → List PyStr
  | [] => []
  | m :: rest =>
    if (pruneStep pm m).getD false then m :: pruneGo m rest else pruneGo m rest

/-- Reference form of the source's `prune` on a non-empty list. -/
def pruneRef : List PyStr → List PyStr
  | [] => []
  | x :: xs => x :: pruneGo x xs

/-! ### Claim C3: classification -/

/-- Claim C3 (amended): classification is total, deterministic and
priority-ordered, with rule 1 being the four SUBSTRING tests for `mod`,
`op`, `args` and `type` on the raw text (not a structured-record decode);
in particular a text passing the four substring tests and containing
`layer:` is classified `opArgs`. -/
theorem claim_C3 (m : PyStr) :
    (classify m = .opArgs ↔ opArgsTest m = true) ∧
    (classify m = .layer ↔
      (opArgsTest m = false ∧ strContains m (pys "layer:") = true)) ∧
    (classify m = .trace ↔
      (opArgsTest m = false ∧ strContains m (pys "layer:") = false ∧
        strContains m (pys "traceMarker") = true)) ∧
    (classify m = .moduleRepr ↔
      (opArgsTest m = false ∧ strContains m (pys "layer:") = false ∧
        strContains m (pys "traceMarker") = false ∧
        strContains m (pys "strRepr") = true)) ∧
    (classify m = .sequence ↔
      (opArgsTest m = false ∧ strContains m (pys "layer:") = false ∧
        strContains m (pys "traceMarker") = false ∧
        strContains m (pys "strRepr") = false ∧
        strContains m (pys ", seq = ") = true)) ∧
    (classify m = .other ↔
      (opArgsTest m = false ∧ strContains m (pys "layer:") = false ∧
        strContains m (pys "traceMarker") = false ∧
        strContains m (pys "strRepr") = false ∧
        strContains m (pys ", seq = ") = false)) ∧
    (opArgsTest m = true → strContains m (pys "layer:") = true →
      classify m = .opArgs) := by
  unfold classify
  split_ifs <;> simp_all

theorem claim_C3_witness :
    classify (pys "layer: mod op args type") = Category.opArgs :=
  (claim_C3 (pys "layer: mod op args type")).2.2.2.2.2.2 (by decide) (by decide)

/-- Counterexample to claim C3 as stated: the text `mod op args type` is
classified `opArgs` by the source although it is not a structured record
at all. -/
theorem claim_C3_cex :
    classify (pys "mod op args type") = Category.opArgs ∧
    isStructuredOpArgsRecord (pys "mod op args type") = false := by
  constructor
  · decide
  · decide

/-! ### Claim C5: sequence-id extraction -/

theorem eraseDups_cons_cons {α : Type} [BEq α] [LawfulBEq α] (b : α) (l : List α) :
    (b :: b :: l).eraseDups = (b :: l).eraseDups := by
  simp [List.eraseDups, List.eraseDups.loop]

/-- Claim C5: on a non-empty list of markers that all parse, `getSeqId`
returns the strictly ascending list of the distinct parsed integers;
repeating an input string does not change the result; and the concrete
example from the spec evaluates as stated. -/
theorem claim_C5 :
    (∀ ms : List PyStr, ms ≠ [] → (∀ m ∈ ms, (parseSeqId m).isSome) →
      ∃ l, getSeqId ms = some l ∧ List.Pairwise (fun a b : Int => a < b) l ∧
        (∀ x : Int, x ∈ l ↔ ∃ m ∈ ms, parseSeqId m = some x)) ∧
    (∀ (m : PyStr) (ms : List PyStr), getSeqId (m :: m :: ms) = getSeqId (m :: ms)) ∧
    getSeqId [pys "B, seq = 9", pys "C, seq = 2", pys "D, seq = 2"] = some [2, 9] := by
  refine ⟨?_, ?_, by decide⟩
  · intro ms _ hsome
    cases hids : optMapM parseSeqId ms with
    | none =>
      exact absurd (hids ▸ optMapM_isSome parseSeqId hsome) (by simp)
    | some ids =>
      refine ⟨sortLe (fun a b => a ≤ b) ids.eraseDups, by simp [getSeqId, hids], ?_, ?_⟩
      · have hle := @pairwise_sortLe Int (fun a b : Int => decide (a ≤ b))
          (fun a b c hab hbc => by
            simp only [decide_eq_true_eq] at *
            omega)
          (fun a b => by
            simp only [Bool.or_eq_true, decide_eq_true_eq]
            omega)
          ids.eraseDups
        have hnd : (sortLe (fun a b : Int => a ≤ b) ids.eraseDups).Nodup :=
          ((sortLe_perm _ _).nodup_iff).mpr (nodup_eraseDups ids)
        exact (hle.and hnd).imp
          (fun hab => lt_of_le_of_ne (by simpa using hab.1) hab.2)
      · intro x
        rw [mem_sortLe, mem_eraseDups]
        exact mem_optMapM_iff parseSeqId hids x
  · intro m ms
    unfold getSeqId
    cases hm : parseSeqId m with
    | none => simp [optMapM, hm]
    | some b =>
      cases hms : optMapM parseSeqId ms with
      | none => simp [optMapM, hm, hms]
      | some ids => simp [optMapM, hm, hms, eraseDups_cons_cons]

theorem claim_C5_witness :
    (∃ l, getSeqId [pys "A, seq = 3"] = some l ∧
      List.Pairwise (fun a b : Int => a < b) l ∧
      (∀ x : Int, x ∈ l ↔ ∃ m ∈ [pys "A, seq = 3"], parseSeqId m = some x)) ∧
    getSeqId [pys "A, seq = 3", pys "A, seq = 3"] = getSeqId [pys "A, seq = 3"] :=
  ⟨claim_C5.1 [pys "A, seq = 3"] (by simp) (by decide),
   claim_C5.2.1 (pys "A, seq = 3") []⟩

/-! ### Claim C6: sequence-marker sort order -/

/-- Claim C6 (amended): the sort key is the single string obtained by
CONCATENATING the part after " = " with the part before it (`l[1] + l[0]`),
compared lexicographically as text — not the pair (suffix, prefix)
compared componentwise; the output is a permutation of the input sorted by
that key, and the marker with seq text "10" still sorts before "2". -/
theorem claim_C6 (ms : List PyStr) (r : List PyStr) (h : sortByKey ms = some r) :
    List.Perm r ms ∧
    List.Pairwise
      (fun a b => ∃ ka kb, seqcompare a = some ka ∧ seqcompare b = some kb ∧
        lexLe ka kb = true) r ∧
    sortByKey [pys "a, seq = 10", pys "b, seq = 2"] =
      some [pys "a, seq = 10", pys "b, seq = 2"] := by
  unfold sortByKey at h
  cases hp : optMapM (fun m => (seqcompare m).bind (fun k => some (k, m))) ms with
  | none => rw [hp] at h; cases h
  | some pairs =>
    rw [hp] at h
    simp only [Option.bind_eq_bind, Option.some_bind, Option.pure_def,
      Option.some.injEq] at h
    have hfact : ∀ p ∈ pairs, seqcompare p.2 = some p.1 := by
      intro p hmem
      rcases (mem_optMapM_iff _ hp p).mp hmem with ⟨m, _, hfm⟩
      cases hsc : seqcompare m with
      | none => rw [hsc] at hfm; cases hfm
      | some k =>
        rw [hsc] at hfm
        simp only [Option.some_bind, Option.some.injEq] at hfm
        rw [← hfm]
        exact hsc
    subst h
    refine ⟨?_, ?_, by decide⟩
    · have h1 := (sortLe_perm (fun a b => lexLe a.1 b.1) pairs).map (fun p => p.2)
      have h2 := optMapM_decorate_snd seqcompare hp
      exact h2 ▸ h1
    · rw [List.pairwise_map]
      have hsorted := @pairwise_sortLe (PyStr × PyStr)
        (fun a b : PyStr × PyStr => lexLe a.1 b.1)
        (fun a b c hab hbc => lexLe_trans a.1 b.1 c.1 hab hbc)
        (fun a b => lexLe_total a.1 b.1) pairs
      refine hsorted.imp_of_mem ?_
      intro a b ha hb hr
      have ha' := hfact a ((mem_sortLe _ pairs a).mp ha)
      have hb' := hfact b ((mem_sortLe _ pairs b).mp hb)
      exact ⟨a.1, b.1, ha', hb', hr⟩

theorem claim_C6_witness :
    sortByKey [pys "b, seq = 2", pys "a, seq = 10"] =
      some [pys "a, seq = 10", pys "b, seq = 2"] ∧
    List.Perm [pys "a, seq = 10", pys "b, seq = 2"]
      [pys "b, seq = 2", pys "a, seq = 10"] :=
  ⟨by decide, (claim_C6 [pys "b, seq = 2", pys "a, seq = 10"] _ (by decide)).1⟩

/-- Counterexample to claim C6 as stated: `z, seq = a` has the strictly
smaller (suffix, prefix) PAIR key, yet the source sorts it after
`a, seq = ab` because it compares the concatenations `az, seq` and
`aba, seq`. -/
theorem claim_C6_cex :
    specPairKeyLt (pys "z, seq = a") (pys "a, seq = ab") = true ∧
    sortByKey [pys "z, seq = a", pys "a, seq = ab"] =
      some [pys "a, seq = ab", pys "z, seq = a"] := by
  constructor
  · decide
  · decide

/-! ### Claim C7: prune -/

theorem prune_eq_ref (x : PyStr) (xs : List PyStr)
    (h : ∀ m ∈ x :: xs, (pruneSplit m).isSome) :
    prune (x :: xs) = some (pruneRef (x :: xs)) := by
  induction xs generalizing x with
  | nil => simp [prune, optMapM, pruneRef, pruneGo]
  | cons y ys ih =>
    have hx := h x (by simp)
    have hy := h y (by simp)
    have hstep : ∃ b, pruneStep x y = some b := by
      cases hpx : pruneSplit x with
      | none => rw [hpx] at hx; cases hx
      | some nx =>
        cases hpy : pruneSplit y with
        | none => rw [hpy] at hy; cases hy
        | some ny =>
          exact ⟨!(ny.2 == nx.2 && (strContains nx.1 ny.1 || strContains ny.1 nx.1)),
            by simp [pruneStep, hpx, hpy]⟩
    rcases hstep with ⟨b, hb⟩
    have hIH := ih y (fun m hm => h m (List.mem_cons_of_mem x hm))
    rw [prune] at hIH ⊢
    cases hflags : optMapM (fun p => pruneStep p.1 p.2) ((y :: ys).zip ys) with
    | none => rw [hflags] at hIH; cases hIH
    | some flags =>
      rw [hflags] at hIH
      simp only [Option.bind_eq_bind, Option.some_bind, Option.pure_def,
        Option.some.injEq] at hIH
      have hIH2 : pruneRef (y :: ys) = y :: pruneGo y ys := rfl
      rw [hIH2] at hIH
      have htail : (ys.zip flags).filterMap
          (fun p => if p.2 = true then some p.1 else none) = pruneGo y ys :=
        (List.cons.inj hIH).2
      have hzip : (x :: y :: ys).zip (y :: ys) = (x, y) :: (y :: ys).zip ys := rfl
      rw [hzip, optMapM]
      simp only [hb, hflags]
      have hrefs : pruneRef (x :: y :: ys) =
          x :: (if b then y :: pruneGo y ys else pruneGo y ys) := by
        have h1 : pruneRef (x :: y :: ys) = x :: pruneGo x (y :: ys) := rfl
        rw [h1, pruneGo, hb]
        cases b <;> simp
      rw [hrefs]
      cases b with
      | true => simp [htail]
      | false => simp [htail]

theorem pruneGo_sublist (pm : PyStr) (l : List PyStr) :
    List.Sublist (pruneGo pm l) l := by
  induction l generalizing pm with
  | nil => simp [pruneGo]
  | cons m rest ih =>
    rw [pruneGo]
    split
    · exact (ih m).cons₂ m
    · exact (ih m).cons m

/-- Claim C7 (amended): on a list whose elements all split on a comma,
prune keeps the first element unconditionally and compares every later
element against its PREDECESSOR IN THE INPUT (whether or not that
predecessor was kept), taking the first two comma-separated fields as
(name, seqPart); kept elements appear in input order. -/
theorem claim_C7 (x : PyStr) (xs : List PyStr)
    (h : ∀ m ∈ x :: xs, (pruneSplit m).isSome) :
    prune (x :: xs) = some (pruneRef (x :: xs)) ∧
    (pruneRef (x :: xs)).head? = some x ∧
    List.Sublist (pruneRef (x :: xs)) (x :: xs) := by
  refine ⟨prune_eq_ref x xs h, rfl, ?_⟩
  have : pruneRef (x :: xs) = x :: pruneGo x xs := rfl
  rw [this]
  exact (pruneGo_sublist x xs).cons₂ x

theorem claim_C7_witness :
    prune [pys "convA, seq = 5", pys "convA_bwd, seq = 5"] =
      some (pruneRef [pys "convA, seq = 5", pys "convA_bwd, seq = 5"]) ∧
    pruneRef [pys "convA, seq = 5", pys "convA_bwd, seq = 5"] = [pys "convA, seq = 5"] :=
  ⟨(claim_C7 (pys "convA, seq = 5") [pys "convA_bwd, seq = 5"] (by decide)).1, by decide⟩

/-- Counterexample to claim C7 as stated: on the sorted list
`[a, ab, az]` (same seq part) the source keeps `az` because it compares it
against the DISCARDED predecessor `ab`, while the previous-kept rule of
the claim discards it; and on two-comma elements the source compares only
the second comma-separated field, not everything after the first comma. -/
theorem claim_C7_cex :
    prune [pys "a, seq = 5", pys "ab, seq = 5", pys "az, seq = 5"] =
      some [pys "a, seq = 5", pys "az, seq = 5"] ∧
    pruneSpec [pys "a, seq = 5", pys "ab, seq = 5", pys "az, seq = 5"] =
      some [pys "a, seq = 5"] ∧
    prune [pys "a, s, 1", pys "ab, s, 2"] = some [pys "a, s, 1"] ∧
    pruneSpec [pys "a, s, 1", pys "ab, s, 2"] =
      some [pys "a, s, 1", pys "ab, s, 2"] := by
  refine ⟨by decide, by decide, by decide, by decide⟩

/-! ### Totality of the sequence pipeline on classified markers -/

theorem prune_subset {ms r : List PyStr} (h : prune ms = some r) :
    ∀ t ∈ r, t ∈ ms := by
  cases ms with
  | nil => cases h
  | cons x xs =>
    rw [prune] at h
    cases hflags : optMapM (fun p => pruneStep p.1 p.2) ((x :: xs).zip xs) with
    | none => rw [hflags] at h; cases h
    | some flags =>
      rw [hflags] at h
      simp only [Option.bind_eq_bind, Option.some_bind, Option.pure_def,
        Option.some.injEq] at h
      subst h
      intro t ht
      rcases List.mem_cons.mp ht with rfl | ht
      · exact List.mem_cons_self _ _
      · rcases List.mem_filterMap.mp ht with ⟨⟨t', fl⟩, hmem, hf⟩
        have := (List.of_mem_zip hmem).1
        cases fl with
        | false => simp at hf
        | true =>
          simp only [if_true] at hf
          cases hf
          exact List.mem_cons_of_mem x this

theorem sortByKey_perm {ms r : List PyStr} (h : sortByKey ms = some r) :
    List.Perm r ms := by
  unfold sortByKey at h
  cases hp : optMapM (fun m => (seqcompare m).bind (fun k => some (k, m))) ms with
  | none => rw [hp] at h; cases h
  | some pairs =>
    rw [hp] at h
    simp only [Option.bind_eq_bind, Option.some_bind, Option.pure_def,
      Option.some.injEq] at h
    subst h
    have h1 := (sortLe_perm (fun a b => lexLe a.1 b.1) pairs).map (fun p => p.2)
    have h2 := optMapM_decorate_snd seqcompare hp
    exact h2 ▸ h1

theorem sortByKey_subset {ms r : List PyStr} (h : sortByKey ms = some r) :
    ∀ t ∈ r, t ∈ ms :=
  fun _ ht => (sortByKey_perm h).mem_iff.mp ht

theorem dedupSortPrune_subset {ms r : List PyStr} (h : dedupSortPrune ms = some r) :
    ∀ t ∈ r, t ∈ ms := by
  unfold dedupSortPrune at h
  split at h
  · cases h
    exact fun t ht => ht
  · cases hsk : sortByKey ms.eraseDups with
    | none => rw [hsk] at h; cases h
    | some r1 =>
      rw [hsk] at h
      intro t ht
      exact mem_eraseDups.mp (sortByKey_subset hsk t (prune_subset h t ht))

theorem classify_sequence_delim {m : PyStr} (h : classify m = Category.sequence) :
    strContains m (pys ", seq = ") = true := by
  unfold classify at h
  split_ifs at h
  all_goals simp_all

theorem seqcompare_isSome {m : PyStr} (h : strContains m (pys ", seq = ") = true) :
    (seqcompare m).isSome := by
  have hinf : (pys ", seq = ") <:+: m := (strContains_iff m _).mp h
  have hinf2 : (pys " = ") <:+: m := List.IsInfix.trans (by decide) hinf
  have hlen := pySplit_length_ge_two (pys " = ") m (by decide) hinf2
  obtain ⟨a, b, t, hshape⟩ : ∃ a b t, pySplit (pys " = ") m = a :: b :: t := by
    cases hp : pySplit (pys " = ") m with
    | nil => rw [hp] at hlen; simp at hlen
    | cons a tail =>
      cases tail with
      | nil => rw [hp] at hlen; simp at hlen
      | cons b t => exact ⟨a, b, t, rfl⟩
  simp [seqcompare, h, hshape]

theorem pruneSplit_isSome {m : PyStr} (h : strContains m (pys ",") = true) :
    (pruneSplit m).isSome := by
  have hinf : (pys ",") <:+: m := (strContains_iff m _).mp h
  have hlen := pySplit_length_ge_two (pys ",") m (by decide) hinf
  unfold pruneSplit
  cases hp : pySplit (pys ",") m with
  | nil => rw [hp] at hlen; simp at hlen
  | cons a tail =>
    cases tail with
    | nil => rw [hp] at hlen; simp at hlen
    | cons b t => simp

theorem pruneStep_isSome {pm m : PyStr} (h1 : (pruneSplit pm).isSome)
    (h2 : (pruneSplit m).isSome) : (pruneStep pm m).isSome := by
  unfold pruneStep
  cases hp1 : pruneSplit pm with
  | none => rw [hp1] at h1; cases h1
  | some a =>
    cases hp2 : pruneSplit m with
    | none => rw [hp2] at h2; cases h2
    | some b => simp

theorem strict_delim_comma {m : PyStr} (h : strContains m (pys ", seq = ") = true) :
    strContains m (pys ",") = true := by
  rw [strContains_iff] at h ⊢
  exact List.IsInfix.trans (by decide) h

theorem prune_isSome {ms : List PyStr} (hne : ms ≠ [])
    (h : ∀ t ∈ ms, (pruneSplit t).isSome) : (prune ms).isSome := by
  cases ms with
  | nil => exact absurd rfl hne
  | cons x xs =>
    rw [prune]
    have : (optMapM (fun p => pruneStep p.1 p.2) ((x :: xs).zip xs)).isSome := by
      apply optMapM_isSome
      intro p hp
      have hz := List.of_mem_zip (by exact hp)
      exact pruneStep_isSome (h p.1 hz.1) (h p.2 (List.mem_cons_of_mem x hz.2))
    cases hflags : optMapM (fun p => pruneStep p.1 p.2) ((x :: xs).zip xs) with
    | none => rw [hflags] at this; cases this
    | some flags => simp

theorem sortByKey_isSome {ms : List PyStr}
    (h : ∀ m ∈ ms, strContains m (pys ", seq = ") = true) :
    (sortByKey ms).isSome := by
  unfold sortByKey
  have : (optMapM (fun m => (seqcompare m).bind (fun k => some (k, m))) ms).isSome := by
    apply optMapM_isSome
    intro m hm
    have := seqcompare_isSome (h m hm)
    cases hsc : seqcompare m with
    | none => rw [hsc] at this; cases this
    | some k => simp
  cases hp : optMapM (fun m => (seqcompare m).bind (fun k => some (k, m))) ms with
  | none => rw [hp] at this; cases this
  | some pairs => simp

theorem dedupSortPrune_isSome {ms : List PyStr}
    (h : ∀ m ∈ ms, strContains m (pys ", seq = ") = true) :
    (dedupSortPrune ms).isSome := by
  unfold dedupSortPrune
  split
  · simp
  · rename_i hne
    have hne2 : ms ≠ [] := by
      intro hnil
      subst hnil
      simp at hne
    have hdelim : ∀ m ∈ ms.eraseDups, strContains m (pys ", seq = ") = true :=
      fun m hm => h m (mem_eraseDups.mp hm)
    have hsk := sortByKey_isSome hdelim
    cases hsk2 : sortByKey ms.eraseDups with
    | none => rw [hsk2] at hsk; cases hsk
    | some r =>
      simp only [Option.some_bind]
      apply prune_isSome
      · intro hnil
        have hperm := sortByKey_perm hsk2
        rw [hnil] at hperm
        have : ms.eraseDups = [] := hperm.symm.eq_nil
        cases ms with
        | nil => exact absurd rfl hne2
        | cons x xs =>
          have hx : x ∈ ([] : List PyStr) :=
            this ▸ mem_eraseDups.mpr (List.mem_cons_self x xs)
          cases hx
      · intro t ht
        exact pruneSplit_isSome
          (strict_delim_comma (hdelim t (sortByKey_subset hsk2 t ht)))

theorem seqStage_isSome (tbl : List Marker) (objId : String) (s e : Int) :
    (seqStage tbl objId s e).isSome := by
  unfold seqStage
  apply dedupSortPrune_isSome
  intro m hm
  have hcl : classify m = Category.sequence := by
    have := (List.mem_filter.mp hm).2
    simpa using this
  exact classify_sequence_delim hcl

/-- The cursor after any `getMarkerInfo` call equals `cursorAfter`: the
write on line 300 happens before any later failure point, and the
sequence pipeline before it cannot raise on classified markers. -/
theorem getMarkerInfo_cursor (tbl : List Marker) (mid : Nat) (objId : String)
    (s e : Int) :
    (getMarkerInfo tbl mid objId s e).2.1 = cursorAfter tbl mid objId s e := by
  unfold getMarkerInfo
  cases hseq : seqStage tbl objId s e with
  | none =>
    have := seqStage_isSome tbl objId s e
    rw [hseq] at this
    cases this
  | some sm =>
    cases halt : altStage tbl mid objId s e with
    | none => rfl
    | some am => rfl

/-- Field equalities of a successfully built correlation record. -/
theorem getMarkerInfo_some_fields {tbl : List Marker} {mid : Nat} {objId : String}
    {s e : Int} {out : Output}
    (h : (getMarkerInfo tbl mid objId s e).1 = some out) :
    seqStage tbl objId s e = some out.seqMarkers ∧
    altStage tbl mid objId s e = some out.altSeqMarkers ∧
    out.layerMarkers = catMarkers tbl objId s e .layer ∧
    out.reprMarkers = catMarkers tbl objId s e .moduleRepr ∧
    out.pyprofMarkers = catMarkers tbl objId s e .opArgs ∧
    out.otherMarkers = (catMarkers tbl objId s e .other).eraseDups ∧
    out.bprop = bpropOf (keptTexts tbl objId s e) := by
  unfold getMarkerInfo at h
  cases hseq : seqStage tbl objId s e with
  | none => rw [hseq] at h; cases h
  | some sm =>
    rw [hseq] at h
    cases halt : altStage tbl mid objId s e with
    | none => rw [halt] at h; cases h
    | some am =>
      rw [halt] at h
      have h2 : buildRecord tbl objId s e sm am = some out := h
      unfold buildRecord at h2
      cases hft : filterTrace (catMarkers tbl objId s e .trace) with
      | none => rw [hft] at h2; cases h2
      | some ct =>
        rw [hft] at h2
        cases hs1 : getSeqId sm with
        | none => rw [hs1] at h2; cases h2
        | some sIds =>
          rw [hs1] at h2
          cases hs2 : getSeqId am with
          | none => rw [hs2] at h2; cases h2
          | some aIds =>
            rw [hs2] at h2
            cases hln : getLayerName (catMarkers tbl objId s e .layer) with
            | none => rw [hln] at h2; cases h2
            | some lN =>
              rw [hln] at h2
              cases h2
              exact ⟨rfl, rfl, rfl, rfl, rfl, rfl, rfl⟩

/-! ### Claim C4: cursor scoping -/

/-- Claim C4 (amended): the lookahead cursor is a single process-wide
value shared by every object identity, not a per-objectId map: whenever a
resolution has at least one enclosing marker and is not backward, the
cursor is overwritten with the id of the last enclosing marker (whether
the call then succeeds or raises); otherwise it is left unchanged.  It is
not monotone and a resolution for one objectId changes the cursor used by
every other objectId (see the counterexample). -/
theorem claim_C4 (tbl : List Marker) (mid : Nat) (objId : String) (s e : Int) :
    (doWindowOf tbl objId s e = true →
      (getMarkerInfo tbl mid objId s e).2.1 = lastId (findEnclosing tbl objId s e)) ∧
    (doWindowOf tbl objId s e = false →
      (getMarkerInfo tbl mid objId s e).2.1 = mid) := by
  constructor <;> intro hdo <;> rw [getMarkerInfo_cursor] <;> simp [cursorAfter, hdo]

/-- Markers for the cursor-sharing counterexample: one object identity
`O1`, a second one `O2` with an enclosing marker of smaller id and a
window marker. -/
def mkA : Marker := ⟨7, 0, 100, "O1", pys "layer:x"⟩

/-- Enclosing marker for `O2` with id 3. -/
def mkB : Marker := ⟨3, 0, 100, "O2", pys "layer:y"⟩

/-- Window marker for `O2` with id 2 carrying both delimiters. -/
def mkD : Marker := ⟨2, 1, 2, "O2", pys "w, seq=2, seq = 2"⟩

/-- Table for the claim C4 counterexample. -/
def tbl4 : List Marker := [mkA, mkB, mkD]

/-- Counterexample to claim C4 as stated: resolving a kernel of `O1` sets
the one shared cursor to 7, and that same value is then used for `O2`
(its lookahead window becomes empty, losing the alt-sequence marker that
a fresh cursor would have found); the following `O2` resolution then
DECREASES the cursor from 7 to 3. -/
theorem claim_C4_cex :
    (getMarkerInfo tbl4 0 "O1" 10 20).2.1 = 7 ∧
    (getMarkerInfo tbl4 0 "O1" 10 20).2.2 = tbl4 ∧
    ((getMarkerInfo tbl4 7 "O2" 10 20).1.map (fun o => o.altSeqMarkers)) = some [] ∧
    ((getMarkerInfo tbl4 0 "O2" 10 20).1.map (fun o => o.altSeqMarkers)) =
      some [pys "w, seq=2, seq = 2"] ∧
    (getMarkerInfo tbl4 7 "O2" 10 20).2.1 = 3 := by
  refine ⟨by decide, by decide, by decide, by decide, by decide⟩

theorem claim_C4_witness :
    (getMarkerInfo tbl4 0 "O1" 10 20).2.1 = lastId (findEnclosing tbl4 "O1" 10 20) ∧
    (getMarkerInfo tbl4 3 "O1" 30 200).2.1 = 3 :=
  ⟨(claim_C4 tbl4 0 "O1" 10 20).1 (by decide),
   (claim_C4 tbl4 3 "O1" 30 200).2 (by decide)⟩

/-! ### Claim C8: the checkpoint pre-filter -/

/-- Claim C8 (amended): a marker containing `CheckpointFunctionBackward`
is discarded before classification and never appears in the six
classification categories (layer, trace, moduleRepr, opArgs, sequence,
other), in the lists built from them, or in the emitted record's
corresponding fields — but the alt-sequence lookahead has no such filter,
so such a marker CAN appear in the `altSequence` category (see the
counterexample). -/
theorem claim_C8 (tbl : List Marker) (mid : Nat) (objId : String) (s e : Int) :
    (∀ c : Category, ∀ m ∈ catMarkers tbl objId s e c, isCheckpoint m = false) ∧
    (∀ out : Output, (getMarkerInfo tbl mid objId s e).1 = some out →
      (∀ m ∈ out.layerMarkers, isCheckpoint m = false) ∧
      (∀ m ∈ out.reprMarkers, isCheckpoint m = false) ∧
      (∀ m ∈ out.pyprofMarkers, isCheckpoint m = false) ∧
      (∀ m ∈ out.seqMarkers, isCheckpoint m = false) ∧
      (∀ m ∈ out.otherMarkers, isCheckpoint m = false)) := by
  have hcat : ∀ c : Category, ∀ m ∈ catMarkers tbl objId s e c, isCheckpoint m = false := by
    intro c m hm
    have hk : m ∈ keptTexts tbl objId s e := (List.mem_filter.mp hm).1
    have := (List.mem_filter.mp hk).2
    simpa using this
  refine ⟨hcat, ?_⟩
  intro out hout
  obtain ⟨hseq, _, hlay, hrepr, hpy, hoth, _⟩ := getMarkerInfo_some_fields hout
  refine ⟨?_, ?_, ?_, ?_, ?_⟩
  · intro m hm
    exact hcat .layer m (hlay ▸ hm)
  · intro m hm
    exact hcat .moduleRepr m (hrepr ▸ hm)
  · intro m hm
    exact hcat .opArgs m (hpy ▸ hm)
  · intro m hm
    exact hcat .sequence m (dedupSortPrune_subset hseq m hm)
  · intro m hm
    exact hcat .other m (mem_eraseDups.mp (hoth ▸ hm))

/-- The record emitted by the first counterexample resolution of claim C4's
table, used to instantiate record-level statements. -/
def out4 : Output := ((getMarkerInfo tbl4 0 "O1" 10 20).1).get (by decide)

/-- An enclosing checkpoint marker that also carries the loose delimiter
and the strict delimiter, so the whole resolution still succeeds. -/
def mkC1 : Marker := ⟨1, 0, 100, "O", pys "CheckpointFunctionBackward, seq=3, seq = 3"⟩

/-- A second enclosing marker whose id bounds the lookahead window. -/
def mkC5 : Marker := ⟨5, 5, 100, "O", pys "layer:conv"⟩

/-- Table for the claim C8 counterexample. -/
def tbl8 : List Marker := [mkC1, mkC5]

/-- Counterexample to claim C8 as stated: the enclosing marker `mkC1`
contains `CheckpointFunctionBackward`, yet the emitted record's
`altSequence` category contains it, because the lookahead loop (lines
308-312) re-reads it from the id window without the checkpoint filter. -/
theorem claim_C8_cex :
    mkC1 ∈ findEnclosing tbl8 "O" 10 20 ∧
    isCheckpoint mkC1.name = true ∧
    ((getMarkerInfo tbl8 0 "O" 10 20).1.map
      (fun o => o.altSeqMarkers.any isCheckpoint)) = some true := by
  refine ⟨by decide, by decide, by decide⟩

theorem claim_C8_witness :
    isCheckpoint (pys "layer:conv") = false ∧ isCheckpoint (pys "layer:x") = false :=
  ⟨(claim_C8 tbl8 0 "O" 10 20).1 Category.layer (pys "layer:conv") (by decide),
   ((claim_C8 tbl4 0 "O1" 10 20).2 out4 (Option.some_get (by decide)).symm).1
     (pys "layer:x") (by decide)⟩

/-! ### Claim C9: loose-delimiter markers abort the resolution -/

/-- Claim C9: during a forward-pass resolution, if the lookahead window
holds a marker whose text contains `", seq="` but not `", seq = "`, the
alt-sequence sort key raises, so `getMarkerInfo` produces no correlation
record (rather than skipping that marker). -/
theorem claim_C9 (tbl : List Marker) (mid : Nat) (objId : String) (s e : Int)
    (hne : (findEnclosing tbl objId s e).isEmpty = false)
    (hbp : bpropOf (keptTexts tbl objId s e) = false)
    (m : Marker)
    (hmem : m ∈ windowQuery tbl objId mid (lastId (findEnclosing tbl objId s e)))
    (hloose : strContains m.name (pys ", seq=") = true)
    (hstrict : strContains m.name (pys ", seq = ") = false) :
    (getMarkerInfo tbl mid objId s e).1 = none := by
  have hdo : doWindowOf tbl objId s e = true := by
    simp [doWindowOf, hne, hbp]
  have hraw : m.name ∈ altRawOf tbl mid objId s e := by
    unfold altRawOf
    rw [hdo]
    simp only [if_true]
    exact List.mem_filter.mpr ⟨List.mem_map.mpr ⟨m, hmem, rfl⟩, hloose⟩
  have halt : altStage tbl mid objId s e = none := by
    unfold altStage dedupSortPrune
    rw [if_neg (by simp [List.isEmpty_iff]; exact List.ne_nil_of_mem hraw)]
    have hsc : seqcompare m.name = none := by
      simp [seqcompare, hstrict]
    have hmap : optMapM (fun t => (seqcompare t).bind (fun k => some (k, t)))
        (altRawOf tbl mid objId s e).eraseDups = none := by
      apply optMapM_eq_none_of_mem _ (mem_eraseDups.mpr hraw)
      rw [hsc]
      rfl
    unfold sortByKey
    rw [hmap]
    rfl
  unfold getMarkerInfo
  cases hseq : seqStage tbl objId s e with
  | none => rfl
  | some sm =>
    rw [halt]

theorem claim_C9_witness :
    (findEnclosing [⟨5, 0, 100, "O", pys "layer:x"⟩, ⟨2, 1, 2, "O", pys "w, seq=3"⟩]
      "O" 10 20).isEmpty = false ∧
    (getMarkerInfo [⟨5, 0, 100, "O", pys "layer:x"⟩, ⟨2, 1, 2, "O", pys "w, seq=3"⟩]
      0 "O" 10 20).1 = none :=
  ⟨by decide,
   claim_C9 [⟨5, 0, 100, "O", pys "layer:x"⟩, ⟨2, 1, 2, "O", pys "w, seq=3"⟩]
     0 "O" 10 20 (by decide) (by decide) ⟨2, 1, 2, "O", pys "w, seq=3"⟩
     (by decide) (by decide) (by decide)⟩

/-! ### Claim C10: checkpoint markers and backward detection -/

/-- Claim C10: checkpoint markers are skipped before the backward test, so
a kernel whose backward-looking enclosing markers all contain
`CheckpointFunctionBackward` keeps `bprop = false` (any emitted record
reports `isBackward = false`), and the alt-sequence lookahead — with its
cursor update — still runs. -/
theorem claim_C10 (tbl : List Marker) (mid : Nat) (objId : String) (s e : Int)
    (hne : (findEnclosing tbl objId s e).isEmpty = false)
    (hcb : ∀ m ∈ findEnclosing tbl objId s e, isBackwardMarker m.name = true →
      isCheckpoint m.name = true) :
    bpropOf (keptTexts tbl objId s e) = false ∧
    (getMarkerInfo tbl mid objId s e).2.1 = lastId (findEnclosing tbl objId s e) ∧
    altRawOf tbl mid objId s e =
      ((windowQuery tbl objId mid (lastId (findEnclosing tbl objId s e))).map
        (fun m => m.name)).filter (fun t => strContains t (pys ", seq=")) ∧
    (∀ out : Output, (getMarkerInfo tbl mid objId s e).1 = some out →
      out.bprop = false) := by
  have hbp : bpropOf (keptTexts tbl objId s e) = false := by
    unfold bpropOf
    rw [List.any_eq_false]
    intro t ht
    have hk := List.mem_filter.mp ht
    rcases List.mem_map.mp hk.1 with ⟨m, hm, rfl⟩
    have hnc : isCheckpoint m.name = false := by simpa using hk.2
    intro hbw
    exact absurd (hcb m hm hbw) (by simp [hnc])
  have hdo : doWindowOf tbl objId s e = true := by
    simp [doWindowOf, hne, hbp]
  refine ⟨hbp, ?_, ?_, ?_⟩
  · rw [getMarkerInfo_cursor]
    simp [cursorAfter, hdo]
  · unfold altRawOf
    rw [hdo]
    simp
  · intro out hout
    have := (getMarkerInfo_some_fields hout).2.2.2.2.2.2
    rw [this, hbp]

/-- A backward-named checkpoint marker enclosing the kernel. -/
def mkG : Marker := ⟨4, 0, 100, "OB", pys "CheckpointFunctionBackward, seq = 2"⟩

/-- Table for the claim C10 witness. -/
def tbl10 : List Marker := [mkG]

theorem claim_C10_witness :
    isBackwardMarker mkG.name = true ∧
    bpropOf (keptTexts tbl10 "OB" 10 20) = false ∧
    (getMarkerInfo tbl10 0 "OB" 10 20).2.1 = lastId (findEnclosing tbl10 "OB" 10 20) :=
  ⟨by decide,
   (claim_C10 tbl10 0 "OB" 10 20 (by decide) (by decide)).1,
   (claim_C10 tbl10 0 "OB" 10 20 (by decide) (by decide)).2.1⟩

end PyProf
